import Mathlib

/-!
Verification development for the Ecomadeiras closing-report generator
(`Fechamento.py`).  The program parses point-of-sale PDF reports into
transaction records, classifies free-text payment notes into canonical
payment descriptions, aggregates the most frequent payment method and
sorts the records for the output spreadsheet.

The Python code is shallowly embedded over `List Char`:

* Python `re` operations are modelled by executable scanners that follow
  the backtracking semantics of the concrete patterns used by the code
  (leftmost match, greedy/lazy quantifier resolution); the derivations
  are spelled out in comments next to each scanner.
* Python `float` on the strings reachable here (digits, `.` and `,`
  after the code's separator normalisation) is modelled as an exact
  rational parser (an exact decimal `DecVal`, interpreted in `ℚ` by
  `DecVal.toRat`); a raised `ValueError` is `none`.
* Character classes (`\s`, `\d`, `str.lower`, `str.strip`) are modelled
  on their ASCII core, which covers every string the claims touch.
-/

/-- Python `\d` (ASCII): `'0'` to `'9'`. -/
def isDigitChar (c : Char) : Bool := 48 ≤ c.toNat && c.toNat ≤ 57

/-- Python `\s` (ASCII core): tab, newline, vertical tab, form feed,
carriage return, space. -/
def isSpaceChar (c : Char) : Bool :=
  c.toNat = 32 || (9 ≤ c.toNat && c.toNat ≤ 13)

/-- Character class `[\d.,]` of the amount groups. -/
def isAmtChar (c : Char) : Bool := isDigitChar c || c = '.' || c = ','

/-- ASCII lowercasing, the fragment of Python `str.lower` used by the
keyword tests (all tested keywords are ASCII). -/
def asciiLower (c : Char) : Char :=
  if 65 ≤ c.toNat && c.toNat ≤ 90 then Char.ofNat (c.toNat + 32) else c

/-- Python `str.lower` on the ASCII fragment. -/
def pyLower (l : List Char) : List Char := l.map asciiLower

/-- Python `str.strip()`: drop leading and trailing whitespace. -/
def pyStrip (l : List Char) : List Char :=
  ((l.dropWhile isSpaceChar).reverse.dropWhile isSpaceChar).reverse

/-- Decimal value of a digit run (used for `pd.to_numeric` on the 4-digit
order token and for the numeric parts of parsed amounts). -/
def digitsVal (l : List Char) : Nat :=
  l.foldl (fun n c => 10 * n + (c.toNat - 48)) 0

/-- Decimal digit character for `n % 10`-style arguments. -/
def digitChar : Nat → Char
  | 0 => '0' | 1 => '1' | 2 => '2' | 3 => '3' | 4 => '4'
  | 5 => '5' | 6 => '6' | 7 => '7' | 8 => '8' | _ => '9'

/-- Fuel-driven decimal rendering accumulator. -/
def natDigitsAux : Nat → Nat → List Char → List Char
  | 0, _, acc => acc
  | fuel + 1, n, acc =>
    if n < 10 then digitChar n :: acc
    else natDigitsAux fuel (n / 10) (digitChar (n % 10) :: acc)

/-- Decimal rendering of a natural number (enough fuel for any `n`). -/
def natToDec (n : Nat) : List Char := natDigitsAux (n + 1) n []

/-- Bool test that `p` is a prefix of `l` (plain `==`-free recursion). -/
def prefixOfL : List Char → List Char → Bool
  | [], _ => true
  | _ :: _, [] => false
  | p :: ps, c :: cs => if p = c then prefixOfL ps cs else false

/-- Python `sub in s` substring test. -/
def containsSub (p : List Char) : List Char → Bool
  | [] => prefixOfL p []
  | c :: cs => prefixOfL p (c :: cs) || containsSub p cs

/-- Exact decimal value `mantissa / 10 ^ scale`, the representation of a
successfully parsed (non-negative) Python float in this embedding. -/
structure DecVal where
  mantissa : Nat
  scale : Nat
deriving DecidableEq

/-- Rational value of a parsed decimal. -/
def DecVal.toRat (v : DecVal) : ℚ := (v.mantissa : ℚ) / (10 : ℚ) ^ v.scale

/-- Python `float()` on strings made of digits and at most one `.`,
which is the exact grammar reachable after the code's
`.replace('.', '').replace(',', '.')` normalisation of a `[\d.,]+`
match.  `none` models a raised `ValueError`.  The parse is exact: the
digits before and after the dot give `mantissa / 10 ^ scale`. -/
def pyFloat (l : List Char) : Option DecVal :=
  let a := l.takeWhile (fun c => ¬ c = '.')
  match l.dropWhile (fun c => ¬ c = '.') with
  | [] => if a ≠ [] ∧ a.all isDigitChar then some ⟨digitsVal a, 0⟩ else none
  | _ :: b =>
    if (a ++ b).all isDigitChar ∧ a ++ b ≠ [] ∧ ¬ b.contains '.' then
      some ⟨digitsVal (a ++ b), b.length⟩
    else none

/-- Division `a / b` rounded half-to-even, the rounding used by
`format(x, '.2f')` once the value is scaled by 100.  (The model rounds
the exact decimal value; CPython rounds its binary-double image, which
agrees on every amount with at most two fractional digits.) -/
def natRoundHalfEven (a b : Nat) : Nat :=
  let q := a / b
  let r := a % b
  if 2 * r < b then q
  else if b < 2 * r then q + 1
  else if q % 2 = 0 then q else q + 1

/-- Two-digit rendering of `n % 100`-style arguments. -/
def twoDig (m : Nat) : List Char := [digitChar (m / 10), digitChar (m % 10)]

/-- Python `f"{v:.2f}"` for the non-negative amounts reachable here:
round `v * 100` to an integer number of cents, then print
`cents / 100` with exactly two digits after the point. -/
def format2f (v : DecVal) : List Char :=
  let c := natRoundHalfEven (v.mantissa * 100) (10 ^ v.scale)
  natToDec (c / 100) ++ '.' :: twoDig (c % 100)

/-!
Tier-1 scanner for `re.findall(r'R\$\s*([\d.,]+)\s*.*?(dinheiro|master|elo|pix)',
observacoes, re.IGNORECASE)` (`Fechamento.py` line 15).

Backtracking analysis used to derive the deterministic scanner below
(each point was cross-checked against CPython `re`):

* `R` is case-insensitive, `\$` literal.
* `\s*` before the amount is effectively maximal: shortening it leaves a
  whitespace character where `[\d.,]+` needs an amount character.
* `([\d.,]+)` is effectively maximal: shortening it never turns an
  overall failure into a success (the freed characters contain no
  newline and no keyword start), and on success the engine commits to
  the maximal group.
* `\s*` after the amount is effectively maximal: a keyword never starts
  with whitespace, and shortening the run only shrinks the region that
  `.*?` must cross without newlines.
* `.*?` (no DOTALL) then yields the first keyword occurrence reachable
  without crossing a newline.
-/

/-- Step 1 of a Tier-1 match attempt at the current position: `R\$\s*([\d.,]+)\s*`.
Returns the amount group and the suffix after the post-amount whitespace. -/
def matchAmtPrefix : List Char → Option (List Char × List Char)
  | c1 :: c2 :: rest =>
    if (c1 = 'R' ∨ c1 = 'r') ∧ c2 = '$' then
      let r1 := rest.dropWhile isSpaceChar
      let amt := r1.takeWhile isAmtChar
      if amt = [] then none
      else some (amt, (r1.dropWhile isAmtChar).dropWhile isSpaceChar)
    else none
  | _ => none

/-- Case-insensitive keyword prefix test returning the characters
actually matched (the `findall` group keeps original case). -/
def stripPrefixCI : List Char → List Char → Option (List Char × List Char)
  | [], l => some ([], l)
  | _ :: _, [] => none
  | k :: ks, c :: cs =>
    if asciiLower c = k then
      match stripPrefixCI ks cs with
      | some (m, r) => some (c :: m, r)
      | none => none
    else none

/-- Alternation `(dinheiro|master|elo|pix)` at the current position
(the four keywords start with distinct letters, so the order is moot). -/
def keywordAt (l : List Char) : Option (List Char × List Char) :=
  match stripPrefixCI ['d','i','n','h','e','i','r','o'] l with
  | some r => some r
  | none =>
  match stripPrefixCI ['m','a','s','t','e','r'] l with
  | some r => some r
  | none =>
  match stripPrefixCI ['e','l','o'] l with
  | some r => some r
  | none => stripPrefixCI ['p','i','x'] l

/-- Lazy `.*?(keyword)` without DOTALL: the first keyword occurrence
reachable without consuming a newline. -/
def findKeywordNL : List Char → Option (List Char × List Char)
  | [] => none
  | c :: cs =>
    match keywordAt (c :: cs) with
    | some r => some r
    | none => if c = '\n' then none else findKeywordNL cs

/-- One full Tier-1 match attempt at the current position. -/
def tier1Step (l : List Char) : Option (List Char × List Char × List Char) :=
  match matchAmtPrefix l with
  | none => none
  | some (amt, rest) =>
    match findKeywordNL rest with
    | none => none
    | some (kw, rest2) => some (amt, kw, rest2)

/-- Leftmost, non-overlapping scan of `re.findall`: try a match at each
position, resume after the matched keyword.  `fuel = length + 1` is
always enough because every iteration consumes at least one character. -/
def tier1Aux : Nat → List Char → List (List Char × List Char)
  | 0, _ => []
  | fuel + 1, l =>
    match tier1Step l with
    | some r => (r.1, r.2.1) :: tier1Aux fuel r.2.2
    | none =>
      match l with
      | [] => []
      | _ :: t => tier1Aux fuel t

/-- All Tier-1 matches of the notes text, in order of appearance. -/
def tier1 (l : List Char) : List (List Char × List Char) :=
  tier1Aux (l.length + 1) l

/-- Normalisation `valor.strip().replace('.', '').replace(',', '.')`
applied to each matched amount (line 19). -/
def normAmt (valor : List Char) : List Char :=
  ((pyStrip valor).filter (fun c => ¬ c = '.')).map
    (fun c => if c = ',' then '.' else c)

/-- Category chain of lines 20-27: branch on `'kw' in tipo.lower()`. -/
def catFor (tipoLower : List Char) : Option (List Char) :=
  if containsSub ['d','i','n','h','e','i','r','o'] tipoLower then
    some ['D','i','n','h','e','i','r','o']
  else if containsSub ['m','a','s','t','e','r'] tipoLower then
    some ['C','a','r','t','ã','o',' ','d','e',' ','C','r','é','d','i','t','o']
  else if containsSub ['e','l','o'] tipoLower then
    some ['C','a','r','t','ã','o',' ','d','e',' ','D','é','b','i','t','o']
  else if containsSub ['p','i','x'] tipoLower then
    some ['P','I','X']
  else none

/-- Loop of lines 18-27: build the formatted entry for each match; a
failing `float()` conversion aborts the whole call (`none`). -/
def entriesAux : List (List Char × List Char) → Option (List (List Char))
  | [] => some []
  | (valor, tipo) :: rest =>
    match catFor (pyLower tipo) with
    | none => entriesAux rest
    | some cat =>
      match pyFloat (normAmt valor) with
      | none => none
      | some q =>
        match entriesAux rest with
        | none => none
        | some es => some ((cat ++ (' ' :: '(' :: 'R' :: '$' :: ' ' :: format2f q) ++ [')']) :: es)

/-- Python `", ".join`. -/
def joinComma : List (List Char) → List Char
  | [] => []
  | [e] => e
  | e :: e2 :: es => e ++ ',' :: ' ' :: joinComma (e2 :: es)

/-- Tier-2 fallback chain of lines 33-38 (each test lowercases the
notes again, exactly as each Python condition calls
`observacoes.lower()`). -/
def tier2 (l : List Char) : List Char :=
  if containsSub ['l','i','n','k',' ','d','e',' ','p','a','g','a','m','e','n','t','o'] (pyLower l) then
    ['C','a','r','t','ã','o',' ','d','e',' ','C','r','é','d','i','t','o']
  else if containsSub ['e','l','o'] (pyLower l) then
    ['C','a','r','t','ã','o',' ','d','e',' ','D','é','b','i','t','o']
  else if containsSub ['a',' ','r','e','c','e','b','e','r'] (pyLower l) ∨ containsSub ['p','i','x'] (pyLower l) then
    ['T','r','a','n','s','f','e','r','ê','n','c','i','a','/','P','I','X']
  else if containsSub ['d','i','n','h','e','i','r','o'] (pyLower l) then
    ['D','i','n','h','e','i','r','o']
  else ['N','ã','o',' ','E','s','p','e','c','i','f','i','c','a','d','o']

/-- Core of `formatar_meio_de_pagamento` over character lists.  `none`
models an uncaught `ValueError` escaping the function. -/
def formatarL (l : List Char) : Option (List Char) :=
  match entriesAux (tier1 l) with
  | none => none
  | some [] => some (tier2 l)
  | some (e :: es) => some (joinComma (e :: es))

/-- `formatar_meio_de_pagamento` (lines 8-38). -/
def formatar_meio_de_pagamento (observacoes : String) : Option String :=
  (formatarL observacoes.toList).map String.mk

/-!
Aggregator `encontrar_pagamento_mais_frequente` (lines 41-56).

`re.findall(r'([a-zA-Zãáçéíõú\s/]+)', item)` returns the maximal runs of
characters of that class (greedy `+`, non-overlapping scan).  Note that
`$` is not in the class, so a run can never contain the substring `R$`
and the `'R$' not in tipo_limpo` filter never discards anything; the
`R` of each currency marker forms its own run and is counted.
-/

/-- Character class `[a-zA-Zãáçéíõú\s/]` of the aggregator pattern
(codepoints 227 ã, 225 á, 231 ç, 233 é, 237 í, 245 õ, 250 ú). -/
def isAggChar (c : Char) : Bool :=
  (65 ≤ c.toNat && c.toNat ≤ 90) || (97 ≤ c.toNat && c.toNat ≤ 122) ||
  c.toNat = 227 || c.toNat = 225 || c.toNat = 231 || c.toNat = 233 ||
  c.toNat = 237 || c.toNat = 245 || c.toNat = 250 ||
  isSpaceChar c || c = '/'

/-- Maximal runs of `isAggChar` characters (fuel-driven; `length + 1`
is enough fuel because every iteration consumes at least one char). -/
def runsAux : Nat → List Char → List (List Char)
  | 0, _ => []
  | _ + 1, [] => []
  | fuel + 1, c :: t =>
    if isAggChar c then
      (c :: t.takeWhile isAggChar) :: runsAux fuel (t.dropWhile isAggChar)
    else runsAux fuel t

/-- `re.findall(r'([a-zA-Zãáçéíõú\s/]+)', item)`. -/
def aggRuns (l : List Char) : List (List Char) := runsAux (l.length + 1) l

/-- `tipo.strip().replace('(', '').replace(')', '').strip()` (line 51). -/
def cleanToken (t : List Char) : List Char :=
  pyStrip (((pyStrip t).filter (fun c => ¬ c = '(')).filter (fun c => ¬ c = ')'))

/-- Tokens contributed by one payment description (lines 49-53). -/
def tokensOf (item : List Char) : List (List Char) :=
  (aggRuns item).filterMap fun t =>
    let tl := cleanToken t
    if tl ≠ [] ∧ containsSub ['R','$'] tl = false then some tl else none

/-- Fold behind `Counter(lista).most_common(1)[0][0]`: walk the token
list keeping the first token whose total count is maximal (a `Counter`
is insertion-ordered and `most_common` sorts stably by descending
count, so ties go to the first-encountered token). -/
def mcAux (full : List (List Char)) : List (List Char) → List Char × Nat → List Char
  | [], (b, _) => b
  | t :: rest, (b, c) =>
    if full.count t > c then mcAux full rest (t, full.count t)
    else mcAux full rest (b, c)

/-- Most frequent token, ties to the first encountered. -/
def mostCommon : List (List Char) → List Char
  | [] => []
  | t :: rest => mcAux (t :: rest) rest (t, (t :: rest).count t)

/-- Index of the first occurrence of a token. -/
def firstIdx (x : List Char) : List (List Char) → Nat
  | [] => 0
  | y :: t => if y = x then 0 else firstIdx x t + 1

/-- Core of `encontrar_pagamento_mais_frequente` over the list of
payment-description strings of the sales column. -/
def encontrarL (col : List (List Char)) : List Char :=
  if col = [] then ['N','e','n','h','u','m']
  else
    let toks := col.flatMap tokensOf
    if toks = [] then ['N','e','n','h','u','m']
    else mostCommon toks

/-- `encontrar_pagamento_mais_frequente` (lines 41-56); the dataframe is
abstracted to its `'Meio de Pagamento'` column in row order. -/
def encontrar_pagamento_mais_frequente (col : List String) : String :=
  String.mk (encontrarL (col.map String.toList))

/-!
Transaction parser `extrair_dados_dos_pdfs` (lines 59-103).
-/

/-- Lookahead `(?=\d{4}\s)`: the suffix starts with four digits and a
whitespace character. -/
def isHeaderAt : List Char → Bool
  | d1 :: d2 :: d3 :: d4 :: s :: _ =>
    isDigitChar d1 && isDigitChar d2 && isDigitChar d3 && isDigitChar d4 && isSpaceChar s
  | _ => false

/-- Accumulating scanner behind `re.split(r'\n(?=\d{4}\s)', texto)`
(line 78): the matched `\n` is removed, the header token stays with the
following block. -/
def splitAux : List Char → List Char → List (List Char)
  | [], acc => [acc.reverse]
  | c :: t, acc =>
    if c = '\n' ∧ isHeaderAt t = true then acc.reverse :: splitAux t []
    else splitAux t (c :: acc)

/-- `re.split(r'\n(?=\d{4}\s)', texto_completo)`. -/
def splitBlocks (l : List Char) : List (List Char) := splitAux l []

/-- Number of interior split boundaries: a `\n` whose suffix starts a
transaction header. -/
def countNL : List Char → Nat
  | [] => 0
  | c :: t => (if c = '\n' ∧ isHeaderAt t = true then 1 else 0) + countNL t

/-- Number of transaction headers in the sense of the specification: a
line (including the first) beginning with a 4-digit token plus
whitespace. -/
def countHeaders (l : List Char) : Nat :=
  (if isHeaderAt l then 1 else 0) + countNL l

/-- Bool test that a block starts with a 4-digit token. -/
def startsWith4Digits : List Char → Bool
  | d1 :: d2 :: d3 :: d4 :: _ =>
    isDigitChar d1 && isDigitChar d2 && isDigitChar d3 && isDigitChar d4
  | _ => false

/-!
Structural pattern of lines 81-84:

  `(\d{4})\s+(\d{2}/\d{2}/\d{4})\s+[\d:]+\s+(.*?)\s+R\$\s[\d.,]+\s+R\$\s([\d.,]+)([\s\S]*)`

with `re.DOTALL`.  Backtracking analysis (cross-checked against CPython):
all `\s+`, `[\d:]+` and `[\d.,]+` pieces are effectively maximal because
the character class of each follower is disjoint from their own class;
the lazy `(.*?)` (which crosses newlines under DOTALL) stops at the
first position whose suffix parses as
`\s+ R\$ \s [\d.,]+ \s+ R\$ \s [\d.,]+ anything`; if no such position
exists the engine backtracks the `\s+` that precedes the group by one
character, which can only yield an empty customer group (possible only
when that whitespace run has length at least two).
-/

/-- Suffix parser `\s+R\$\s[\d.,]+\s+R\$\s([\d.,]+)([\s\S]*)`: returns
the total group and the trailing notes group. -/
def suffixMatch (l : List Char) : Option (List Char × List Char) :=
  if l.takeWhile isSpaceChar = [] then none
  else
    match l.dropWhile isSpaceChar with
    | 'R' :: '$' :: c :: rest =>
      if isSpaceChar c then
        let a1 := rest.takeWhile isAmtChar
        if a1 = [] then none
        else
          let r2 := rest.dropWhile isAmtChar
          if r2.takeWhile isSpaceChar = [] then none
          else
            match r2.dropWhile isSpaceChar with
            | 'R' :: '$' :: c2 :: rest2 =>
              if isSpaceChar c2 then
                let a2 := rest2.takeWhile isAmtChar
                if a2 = [] then none
                else some (a2, rest2.dropWhile isAmtChar)
              else none
            | _ => none
      else none
    | _ => none

/-- Lazy scan of `(.*?)` under DOTALL: accumulate the customer group
until the suffix parser succeeds. -/
def clienteScan : List Char → List Char → Option (List Char × List Char × List Char)
  | l, acc =>
    match suffixMatch l with
    | some (g4, g5) => some (acc.reverse, g4, g5)
    | none =>
      match l with
      | [] => none
      | c :: t => clienteScan t (c :: acc)

/-- Groups of one structural match. -/
structure RawMatch where
  g1 : List Char
  g2 : List Char
  g3 : List Char
  g4 : List Char
  g5 : List Char
deriving DecidableEq

/-- Date token `\d{2}/\d{2}/\d{4}`. -/
def matchDate : List Char → Option (List Char × List Char)
  | a :: b :: s1 :: c :: d :: s2 :: e :: f :: g :: h :: rest =>
    if isDigitChar a ∧ isDigitChar b ∧ s1 = '/' ∧ isDigitChar c ∧ isDigitChar d ∧
       s2 = '/' ∧ isDigitChar e ∧ isDigitChar f ∧ isDigitChar g ∧ isDigitChar h then
      some ([a, b, s1, c, d, s2, e, f, g, h], rest)
    else none
  | _ => none

/-- Attempt the structural pattern anchored at the current position. -/
def matchAt : List Char → Option RawMatch
  | d1 :: d2 :: d3 :: d4 :: rest =>
    if isDigitChar d1 ∧ isDigitChar d2 ∧ isDigitChar d3 ∧ isDigitChar d4 then
      if rest.takeWhile isSpaceChar = [] then none
      else
        match matchDate (rest.dropWhile isSpaceChar) with
        | none => none
        | some (g2, r2) =>
          if r2.takeWhile isSpaceChar = [] then none
          else
            let r3 := r2.dropWhile isSpaceChar
            let time := r3.takeWhile (fun c => isDigitChar c || c = ':')
            if time = [] then none
            else
              let r4 := r3.dropWhile (fun c => isDigitChar c || c = ':')
              let ws := r4.takeWhile isSpaceChar
              if ws = [] then none
              else
                let start3 := r4.dropWhile isSpaceChar
                match clienteScan start3 [] with
                | some (g3, g4, g5) => some ⟨[d1, d2, d3, d4], g2, g3, g4, g5⟩
                | none =>
                  if 2 ≤ ws.length then
                    match suffixMatch (ws.drop (ws.length - 1) ++ start3) with
                    | some (g4, g5) => some ⟨[d1, d2, d3, d4], g2, [], g4, g5⟩
                    | none => none
                  else none
    else none
  | _ => none

/-- `re.search` scan of the structural pattern: leftmost successful
attempt. -/
def searchTransacao : List Char → Option RawMatch
  | [] => none
  | c :: t =>
    match matchAt (c :: t) with
    | some m => some m
    | none => searchTransacao t

/-- One extracted sale (lines 94-100). -/
structure Transacao where
  numero : List Char
  data : List Char
  cliente : List Char
  valor : DecVal
  meio : List Char
deriving DecidableEq

/-- Conversion of the locale-formatted total (lines 91 and 98):
`strip`, drop the `.` thousands separators, turn `,` into `.`, then
`float()`.  `none` models a raised `ValueError`. -/
def convValor (s : List Char) : Option DecVal := pyFloat (normAmt s)

/-- Processing of one block (lines 80-100): `Except.error` models an
exception escaping to the per-file handler. -/
def processBlock (bloco : List Char) : Except Unit (Option Transacao) :=
  match searchTransacao bloco with
  | none => .ok none
  | some m =>
    let cliente := pyStrip m.g3
    if containsSub ['a','b','e','r','t','u','r','a',' ','d','e',' ','c','a','i','x','a']
        (pyLower cliente) then .ok none
    else
      match convValor m.g4 with
      | none => .error ()
      | some v =>
        match formatarL (pyStrip m.g5) with
        | none => .error ()
        | some meio => .ok (some ⟨m.g1, m.g2, cliente, v, meio⟩)

/-- Block loop of one file: records appended before an exception are
kept (they were already appended to the outer list), the remaining
blocks of the file are abandoned, and the error flag records that the
per-file handler fired. -/
def processFileBlocks : List (List Char) → List Transacao × Bool
  | [] => ([], false)
  | b :: rest =>
    match processBlock b with
    | .error _ => ([], true)
    | .ok none => processFileBlocks rest
    | .ok (some r) =>
      let p := processFileBlocks rest
      (r :: p.1, p.2)

/-- One input file: either the extracted text of the document reader, or
a reader failure (e.g. `pdfplumber` throwing on open). -/
inductive FileInput where
  | ok (texto : List Char)
  | readerError
deriving DecidableEq

/-- Records contributed by one file (the per-file `try` of lines 75-102
catches both reader failures and block-level exceptions). -/
def fileRecords : FileInput → List Transacao
  | .readerError => []
  | .ok texto => (processFileBlocks (splitBlocks texto)).1

/-- Concatenation over the directory listing. -/
def coleta : List FileInput → List Transacao
  | [] => []
  | f :: fs => fileRecords f ++ coleta fs

/-- `extrair_dados_dos_pdfs` (lines 59-103): a missing directory returns
`None` before any file is touched; otherwise every file contributes the
records extracted before its first error. -/
def extrair_dados_dos_pdfs (dirExists : Bool) (files : List FileInput) :
    Option (List Transacao) :=
  if dirExists then some (coleta files) else none

/-!
Output ordering of `criar_planilha_excel` (lines 110-118): the order
number is parsed numerically (`pd.to_numeric`), the date is parsed as
`dd/mm/yyyy` (`pd.to_datetime`), and the rows are sorted by
`['Numero do Pedido', 'Data']`.
-/

/-- Numeric order key (`pd.to_numeric` on the 4-digit token). -/
def numKey (r : Transacao) : Nat := digitsVal r.numero

/-- Chronological key of a `dd/mm/yyyy` token: `y * 10000 + m * 100 + d`
orders exactly like the calendar date because the two-digit fields are
below 100. -/
def dateKey (r : Transacao) : Nat :=
  match r.data with
  | [d1, d2, _, m1, m2, _, y1, y2, y3, y4] =>
    digitsVal [y1, y2, y3, y4] * 10000 + digitsVal [m1, m2] * 100 + digitsVal [d1, d2]
  | _ => 0

/-- Sort relation of line 118: order number first, date second,
both ascending. -/
def keyLE (a b : Transacao) : Prop :=
  numKey a < numKey b ∨ (numKey a = numKey b ∧ dateKey a ≤ dateKey b)

instance : DecidableRel keyLE := fun a b =>
  inferInstanceAs (Decidable (numKey a < numKey b ∨ (numKey a = numKey b ∧ dateKey a ≤ dateKey b)))

instance : IsTotal Transacao keyLE := by
  constructor
  intro a b
  simp only [keyLE]
  omega

instance : IsTrans Transacao keyLE := by
  constructor
  intro a b c
  simp only [keyLE]
  omega

/-- Sorting step of `criar_planilha_excel` (line 118), realised as an
insertion sort on the lexicographic key (`pandas` leaves the relative
order of rows with fully equal keys unspecified). -/
def ordenar_vendas (rs : List Transacao) : List Transacao :=
  List.insertionSort keyLE rs

/-!
Claim theorems.
-/

/-- Claim C5: the locale-formatted total is converted by stripping the
`.` thousands separators and turning the `,` decimal separator into
`.`; `"1.234,56"` converts to `1234.56`, `"50,00"` to `50.00`, and any
successfully converted total is non-negative. -/
theorem claim_C5 :
    (∃ v, convValor "1.234,56".toList = some v ∧ v.toRat = (123456 : ℚ) / 100)
    ∧ (∃ v, convValor "50,00".toList = some v ∧ v.toRat = (50 : ℚ))
    ∧ ∀ s v, convValor s = some v → 0 ≤ v.toRat := by
  refine ⟨⟨⟨123456, 2⟩, by decide, ?_⟩, ⟨⟨5000, 2⟩, by decide, ?_⟩, ?_⟩
  · unfold DecVal.toRat
    norm_num
  · unfold DecVal.toRat
    norm_num
  · intro s v _
    unfold DecVal.toRat
    positivity

/-- Claim C5 witness: the non-negativity clause applied at the concrete
total `"7,5"`, which converts to the decimal `75 / 10^1 = 7.5`. -/
theorem claim_C5_witness : (0 : ℚ) ≤ DecVal.toRat ⟨75, 1⟩ :=
  claim_C5.2.2 "7,5".toList ⟨75, 1⟩ (by decide)

/-- Claim C6: whenever the structural pattern matches a block and the
extracted customer segment contains the phrase `abertura de caixa` in
any letter case, the block produces no record. -/
theorem claim_C6 (bloco : List Char) (m : RawMatch)
    (hm : searchTransacao bloco = some m)
    (hab : containsSub ['a','b','e','r','t','u','r','a',' ','d','e',' ','c','a','i','x','a']
      (pyLower (pyStrip m.g3)) = true) :
    processBlock bloco = .ok none := by
  unfold processBlock
  rw [hm]
  simp only [hab, if_true]

/-- Claim C6 witness: a concrete block whose customer segment is
`Abertura de Caixa` yields no record. -/
theorem claim_C6_witness :
    processBlock "4321 05/01/2024 10:30 Abertura de Caixa R$ 0,00 R$ 50,00 x".toList
      = .ok none := by
  refine claim_C6 _ ⟨"4321".toList, "05/01/2024".toList, "Abertura de Caixa".toList,
    "50,00".toList, " x".toList⟩ (by decide) (by decide)

/-- Concatenation over a directory split distributes over append. -/
theorem coleta_append (xs ys : List FileInput) :
    coleta (xs ++ ys) = coleta xs ++ coleta ys := by
  induction xs with
  | nil => rfl
  | cons f fs ih => simp [coleta, ih]

/-- Claim C7: a missing input directory is fatal and yields no records,
while an error in any single file is confined to that file — every
other file's records are kept — and a run over an existing directory
always returns a record list. -/
theorem claim_C7 :
    (∀ files, extrair_dados_dos_pdfs false files = none)
    ∧ (∀ pre f post, extrair_dados_dos_pdfs true (pre ++ f :: post)
        = some (coleta pre ++ (fileRecords f ++ coleta post)))
    ∧ ∀ files, ∃ l, extrair_dados_dos_pdfs true files = some l := by
  refine ⟨fun files => rfl, fun pre f post => ?_, fun files => ⟨coleta files, rfl⟩⟩
  show some (coleta (pre ++ f :: post)) = _
  rw [coleta_append]
  rfl

/-- Claim C8: the output stage orders records by numeric order number
first and date second, both ascending, as a permutation of the input;
on the records with order numbers `[10, 5, 10]` and dates
`[01/02/2024, 01/01/2024, 15/01/2024]` it returns the
`(5, 01/01)`, `(10, 15/01)`, `(10, 01/02)` ordering. -/
theorem claim_C8 :
    (∀ rs, List.Sorted keyLE (ordenar_vendas rs) ∧ (ordenar_vendas rs).Perm rs)
    ∧ ordenar_vendas
        [⟨"0010".toList, "01/02/2024".toList, "A".toList, ⟨0, 0⟩, []⟩,
         ⟨"0005".toList, "01/01/2024".toList, "B".toList, ⟨0, 0⟩, []⟩,
         ⟨"0010".toList, "15/01/2024".toList, "C".toList, ⟨0, 0⟩, []⟩]
      = [⟨"0005".toList, "01/01/2024".toList, "B".toList, ⟨0, 0⟩, []⟩,
         ⟨"0010".toList, "15/01/2024".toList, "C".toList, ⟨0, 0⟩, []⟩,
         ⟨"0010".toList, "01/02/2024".toList, "A".toList, ⟨0, 0⟩, []⟩] := by
  refine ⟨fun rs => ⟨List.sorted_insertionSort keyLE rs, List.perm_insertionSort keyLE rs⟩, ?_⟩
  decide

/-- Claim C9: the classifier is not total — on the notes
`R$ 1,2,3 dinheiro` Tier 1 matches but the amount conversion raises —
and in a file whose middle block carries such notes, the record of the
block before it is kept while the block after it is abandoned. -/
theorem claim_C9 :
    tier1 "R$ 1,2,3 dinheiro".toList ≠ []
    ∧ formatar_meio_de_pagamento "R$ 1,2,3 dinheiro" = none
    ∧ processFileBlocks
        ["1235 02/01/2024 11:00 ANA R$ 1,00 R$ 30,00 pago no pix".toList,
         "1234 01/01/2024 10:00 CAIO R$ 1,00 R$ 50,00 pago R$ 1,2,3 dinheiro".toList,
         "1236 03/01/2024 12:00 BIA R$ 1,00 R$ 20,00 dinheiro".toList]
      = ([⟨"1235".toList, "02/01/2024".toList, "ANA".toList, ⟨3000, 2⟩,
          "Transferência/PIX".toList⟩], true) := by
  refine ⟨by decide, by decide, by decide⟩

/-- A digit character is not a newline. -/
theorem digit_ne_newline {c : Char} (h : isDigitChar c = true) : ¬ c = '\n' := by
  intro hc
  subst hc
  simp [isDigitChar] at h

/-- The block count of the split is the number of interior boundaries
plus one, whatever is already accumulated. -/
theorem splitAux_length (l : List Char) :
    ∀ acc, (splitAux l acc).length = countNL l + 1 := by
  induction l with
  | nil => intro acc; rfl
  | cons c t ih =>
    intro acc
    by_cases h : c = '\n' ∧ isHeaderAt t = true
    · simp only [splitAux, if_pos h, countNL, List.length_cons, ih]
      omega
    · simp only [splitAux, if_neg h, countNL, ih]
      omega

/-- The first block of the split extends the accumulator. -/
theorem splitAux_head (l : List Char) :
    ∀ acc, ∃ u t, splitAux l acc = (acc.reverse ++ u) :: t := by
  induction l with
  | nil => intro acc; exact ⟨[], [], by simp [splitAux]⟩
  | cons c t ih =>
    intro acc
    by_cases h : c = '\n' ∧ isHeaderAt t = true
    · exact ⟨[], splitAux t [], by simp [splitAux, h]⟩
    · obtain ⟨u, t2, hu⟩ := ih (c :: acc)
      refine ⟨c :: u, t2, ?_⟩
      simp only [splitAux, if_neg h]
      rw [hu]
      simp

/-- A suffix that carries a transaction header yields a first block
starting with its 4-digit token. -/
theorem splitAux_start_header (l : List Char) (hl : isHeaderAt l = true)
    (b : List Char) (t : List (List Char)) (hb : splitBlocks l = b :: t) :
    startsWith4Digits b = true := by
  revert hb
  match l, hl with
  | d1 :: d2 :: d3 :: d4 :: s :: r, hl =>
    intro hb
    simp only [isHeaderAt, Bool.and_eq_true] at hl
    obtain ⟨⟨⟨⟨h1, h2⟩, h3⟩, h4⟩, _⟩ := hl
    unfold splitBlocks at hb
    rw [show splitAux (d1 :: d2 :: d3 :: d4 :: s :: r) [] = splitAux (d2 :: d3 :: d4 :: s :: r) [d1] by
          simp only [splitAux]; rw [if_neg]; exact fun hc => digit_ne_newline h1 hc.1,
        show splitAux (d2 :: d3 :: d4 :: s :: r) [d1] = splitAux (d3 :: d4 :: s :: r) [d2, d1] by
          simp only [splitAux]; rw [if_neg]; exact fun hc => digit_ne_newline h2 hc.1,
        show splitAux (d3 :: d4 :: s :: r) [d2, d1] = splitAux (d4 :: s :: r) [d3, d2, d1] by
          simp only [splitAux]; rw [if_neg]; exact fun hc => digit_ne_newline h3 hc.1,
        show splitAux (d4 :: s :: r) [d3, d2, d1] = splitAux (s :: r) [d4, d3, d2, d1] by
          simp only [splitAux]; rw [if_neg]; exact fun hc => digit_ne_newline h4 hc.1] at hb
    obtain ⟨u, t2, hu⟩ := splitAux_head (s :: r) [d4, d3, d2, d1]
    rw [hu] at hb
    simp only [List.cons.injEq] at hb
    obtain ⟨hb1, _⟩ := hb
    subst hb1
    simp [startsWith4Digits, h1, h2, h3, h4]

/-- Every block after the first starts with a 4-digit token. -/
theorem splitAux_tail_header (l : List Char) :
    ∀ acc b, b ∈ (splitAux l acc).tail → startsWith4Digits b = true := by
  induction l with
  | nil => intro acc b hb; simp [splitAux] at hb
  | cons c t ih =>
    intro acc b hb
    by_cases h : c = '\n' ∧ isHeaderAt t = true
    · simp only [splitAux, if_pos h, List.tail_cons] at hb
      obtain ⟨u, t2, hu⟩ := splitAux_head t []
      rw [hu] at hb
      rw [List.mem_cons] at hb
      rcases hb with hb | hb
      · subst hb
        exact splitAux_start_header t h.2 _ t2 (by simpa [splitBlocks] using hu)
      · exact ih [] b (by rw [hu]; exact hb)
    · simp only [splitAux, if_neg h] at hb
      exact ih (c :: acc) b hb

/-- Claim C4 (amended): the lookahead split removes only the matched
newline, every block after the first starts with its 4-digit delimiter
token, and the number of blocks is the number of newline-preceded
header boundaries plus one; this equals the number N of transaction
headers exactly when the text itself begins with a header, and is N + 1
otherwise. -/
theorem claim_C4 (texto : String) :
    (splitBlocks texto.toList).length = countNL texto.toList + 1
    ∧ (isHeaderAt texto.toList = true →
        (splitBlocks texto.toList).length = countHeaders texto.toList)
    ∧ (isHeaderAt texto.toList = false →
        (splitBlocks texto.toList).length = countHeaders texto.toList + 1)
    ∧ ∀ b ∈ (splitBlocks texto.toList).tail, startsWith4Digits b = true := by
  have hlen : (splitBlocks texto.toList).length = countNL texto.toList + 1 :=
    splitAux_length texto.toList []
  refine ⟨hlen, ?_, ?_, fun b hb => splitAux_tail_header _ [] b hb⟩
  · intro h
    rw [hlen, countHeaders, h, if_pos rfl]
    omega
  · intro h
    rw [hlen, countHeaders, h, if_neg Bool.false_ne_true]
    omega

/-- Claim C4 counterexample: `"junk\n1234 x"` contains exactly one
transaction header but splits into two blocks, so the split does not
produce exactly N blocks for N headers. -/
theorem claim_C4_counterexample :
    countHeaders "junk\n1234 x".toList = 1
    ∧ splitBlocks "junk\n1234 x".toList = ["junk".toList, "1234 x".toList]
    ∧ (splitBlocks "junk\n1234 x".toList).length = 2 :=
  ⟨by decide, by decide, by decide⟩

/-- Claim C4 witness: on a text that begins with a header, the block
count does equal the header count. -/
theorem claim_C4_witness :
    (splitBlocks "1234 a\n5678 b".toList).length = countHeaders "1234 a\n5678 b".toList
    ∧ countHeaders "1234 a\n5678 b".toList = 2 :=
  ⟨(claim_C4 "1234 a\n5678 b").2.1 (by decide), by decide⟩

/-- A category produced by the Tier-1 branch chain is never empty. -/
theorem catFor_ne_nil (t c : List Char) (h : catFor t = some c) : c ≠ [] := by
  unfold catFor at h
  split_ifs at h <;> simp only [Option.some.injEq] at h <;> subst h <;> decide

/-- Every Tier-1 entry string is non-empty. -/
theorem entries_ne_nil (ms : List (List Char × List Char)) :
    ∀ es, entriesAux ms = some es → ∀ e ∈ es, e ≠ [] := by
  induction ms with
  | nil =>
    intro es h e he
    unfold entriesAux at h
    simp only [Option.some.injEq] at h
    subst h
    simp at he
  | cons m rest ih =>
    intro es h e he
    obtain ⟨valor, tipo⟩ := m
    unfold entriesAux at h
    cases hc : catFor (pyLower tipo) with
    | none =>
      rw [hc] at h
      exact ih es h e he
    | some cat =>
      rw [hc] at h
      cases hq : pyFloat (normAmt valor) with
      | none => rw [hq] at h; cases h
      | some q =>
        rw [hq] at h
        cases hrest : entriesAux rest with
        | none => rw [hrest] at h; cases h
        | some es2 =>
          rw [hrest] at h
          simp only [Option.some.injEq] at h
          subst h
          rw [List.mem_cons] at he
          rcases he with he | he
          · subst he
            intro hnil
            exact catFor_ne_nil _ _ hc (List.append_eq_nil.mp
              ((List.append_eq_nil.mp hnil).1)).1
          · exact ih es2 hrest e he

/-- Joining a list whose head is non-empty gives a non-empty string. -/
theorem joinComma_ne_nil (e : List Char) (es : List (List Char)) (he : e ≠ []) :
    joinComma (e :: es) ≠ [] := by
  cases es with
  | nil => exact he
  | cons e2 es2 =>
    unfold joinComma
    intro h
    exact he (List.append_eq_nil.mp h).1

/-- A false Bool test is not true. -/
theorem bfalse {b : Bool} (h : b = false) : ¬ b = true := by
  simp [h]

/-- The Tier-2 fallback always returns a non-empty string. -/
theorem tier2_ne_nil (l : List Char) : tier2 l ≠ [] := by
  unfold tier2
  split_ifs <;> decide

/-- Claim C2: when Tier 1 finds no match the classifier returns the
Tier-2 fallback, which follows the fixed priority chain
(payment link, elo, a-receber-or-pix, dinheiro, sentinel), and every
string the classifier returns is non-empty. -/
theorem claim_C2 (obs : String) :
    (tier1 obs.toList = [] →
      formatar_meio_de_pagamento obs = some (String.mk (tier2 obs.toList))
      ∧ (containsSub ['l','i','n','k',' ','d','e',' ','p','a','g','a','m','e','n','t','o']
           (pyLower obs.toList) = true →
          tier2 obs.toList = ['C','a','r','t','ã','o',' ','d','e',' ','C','r','é','d','i','t','o'])
      ∧ (containsSub ['l','i','n','k',' ','d','e',' ','p','a','g','a','m','e','n','t','o']
           (pyLower obs.toList) = false →
         containsSub ['e','l','o'] (pyLower obs.toList) = true →
          tier2 obs.toList = ['C','a','r','t','ã','o',' ','d','e',' ','D','é','b','i','t','o'])
      ∧ (containsSub ['l','i','n','k',' ','d','e',' ','p','a','g','a','m','e','n','t','o']
           (pyLower obs.toList) = false →
         containsSub ['e','l','o'] (pyLower obs.toList) = false →
         (containsSub ['a',' ','r','e','c','e','b','e','r'] (pyLower obs.toList) = true ∨
          containsSub ['p','i','x'] (pyLower obs.toList) = true) →
          tier2 obs.toList = ['T','r','a','n','s','f','e','r','ê','n','c','i','a','/','P','I','X'])
      ∧ (containsSub ['l','i','n','k',' ','d','e',' ','p','a','g','a','m','e','n','t','o']
           (pyLower obs.toList) = false →
         containsSub ['e','l','o'] (pyLower obs.toList) = false →
         containsSub ['a',' ','r','e','c','e','b','e','r'] (pyLower obs.toList) = false →
         containsSub ['p','i','x'] (pyLower obs.toList) = false →
         containsSub ['d','i','n','h','e','i','r','o'] (pyLower obs.toList) = true →
          tier2 obs.toList = ['D','i','n','h','e','i','r','o'])
      ∧ (containsSub ['l','i','n','k',' ','d','e',' ','p','a','g','a','m','e','n','t','o']
           (pyLower obs.toList) = false →
         containsSub ['e','l','o'] (pyLower obs.toList) = false →
         containsSub ['a',' ','r','e','c','e','b','e','r'] (pyLower obs.toList) = false →
         containsSub ['p','i','x'] (pyLower obs.toList) = false →
         containsSub ['d','i','n','h','e','i','r','o'] (pyLower obs.toList) = false →
          tier2 obs.toList = ['N','ã','o',' ','E','s','p','e','c','i','f','i','c','a','d','o']))
    ∧ ∀ r, formatar_meio_de_pagamento obs = some r → r ≠ "" := by
  constructor
  · intro h1
    refine ⟨?_, ?_, ?_, ?_, ?_, ?_⟩
    · unfold formatar_meio_de_pagamento formatarL
      rw [h1]
      rfl
    · intro hc1
      unfold tier2
      rw [if_pos hc1]
    · intro hc1 hc2
      unfold tier2
      rw [if_neg (bfalse hc1), if_pos hc2]
    · intro hc1 hc2 hc3
      unfold tier2
      rw [if_neg (bfalse hc1), if_neg (bfalse hc2), if_pos hc3]
    · intro hc1 hc2 hc3 hc4 hc5
      unfold tier2
      rw [if_neg (bfalse hc1), if_neg (bfalse hc2),
        if_neg (fun hor => Or.elim hor (bfalse hc3) (bfalse hc4)), if_pos hc5]
    · intro hc1 hc2 hc3 hc4 hc5
      unfold tier2
      rw [if_neg (bfalse hc1), if_neg (bfalse hc2),
        if_neg (fun hor => Or.elim hor (bfalse hc3) (bfalse hc4)), if_neg (bfalse hc5)]
  · intro r hr
    unfold formatar_meio_de_pagamento at hr
    cases hfl : formatarL obs.toList with
    | none => rw [hfl] at hr; cases hr
    | some l2 =>
      rw [hfl] at hr
      injection hr with hr
      subst hr
      have hne : l2 ≠ [] := by
        unfold formatarL at hfl
        cases hent : entriesAux (tier1 obs.toList) with
        | none => rw [hent] at hfl; cases hfl
        | some es =>
          rw [hent] at hfl
          cases es with
          | nil =>
            simp only [Option.some.injEq] at hfl
            subst hfl
            exact tier2_ne_nil _
          | cons e es2 =>
            simp only [Option.some.injEq] at hfl
            subst hfl
            exact joinComma_ne_nil e es2
              (entries_ne_nil _ _ hent e (List.mem_cons_self e es2))
      intro hmk
      apply hne
      simpa using congrArg String.data hmk

/-- Claim C2 witness: on `"pagamento elo"` Tier 1 finds nothing and the
fallback chain returns the non-empty debit-card label. -/
theorem claim_C2_witness :
    formatar_meio_de_pagamento "pagamento elo" = some "Cartão de Débito"
    ∧ ("Cartão de Débito" : String) ≠ "" := by
  have h := claim_C2 "pagamento elo"
  have h1 := h.1 (by decide)
  have hv : formatar_meio_de_pagamento "pagamento elo" = some "Cartão de Débito" := by
    rw [h1.1]
    decide
  exact ⟨hv, h.2 _ hv⟩

/-- Bool test of the amended Tier-1 locality condition at one position:
either no `R\$\s*[\d.,]+\s*` prefix matches here, or no keyword is
reachable from the end of the post-amount whitespace run without
crossing a newline. -/
def noSameLineKeyword (l : List Char) : Bool :=
  match matchAmtPrefix l with
  | none => true
  | some (_, rest) => (findKeywordNL rest).isNone

/-- Positions satisfying the locality condition admit no Tier-1 match. -/
theorem tier1Step_of_noSameLine (l : List Char) (h : noSameLineKeyword l = true) :
    tier1Step l = none := by
  unfold noSameLineKeyword at h
  unfold tier1Step
  cases hm : matchAmtPrefix l with
  | none => rfl
  | some p =>
    obtain ⟨amt, rest⟩ := p
    rw [hm] at h
    rw [Option.isNone_iff_eq_none] at h
    dsimp only
    rw [h]

/-- If every suffix of the text satisfies the locality condition, the
Tier-1 scan returns no matches. -/
theorem tier1Aux_nil (l0 : List Char)
    (h : ∀ l' ∈ l0.tails, noSameLineKeyword l' = true) :
    ∀ fuel l, l <:+ l0 → tier1Aux fuel l = [] := by
  intro fuel
  induction fuel with
  | zero => intro l _; rfl
  | succ fuel ih =>
    intro l hsuf
    have hstep : tier1Step l = none :=
      tier1Step_of_noSameLine l (h l ((List.mem_tails l l0).mpr hsuf))
    cases l with
    | nil => rfl
    | cons c t =>
      have hunf : tier1Aux (fuel + 1) (c :: t) = tier1Aux fuel t := by
        show (match tier1Step (c :: t) with
              | some r => (r.1, r.2.1) :: tier1Aux fuel r.2.2
              | none =>
                match c :: t with
                | [] => []
                | _ :: t2 => tier1Aux fuel t2) = tier1Aux fuel t
        rw [hstep]
      rw [hunf]
      exact ih t (List.IsSuffix.trans ⟨[c], rfl⟩ hsuf)

/-- Claim C10 (amended): Tier 1 requires the keyword to follow the
amount with no newline after the maximal whitespace run that follows
the amount token (that whitespace run itself may contain newlines).
Whenever every `R$ amount` occurrence has no keyword reachable under
this condition, Tier 1 yields nothing and the Tier-2 fallback answers. -/
theorem claim_C10 (obs : String)
    (h : ∀ l' ∈ obs.toList.tails, noSameLineKeyword l' = true) :
    tier1 obs.toList = []
    ∧ formatar_meio_de_pagamento obs = some (String.mk (tier2 obs.toList)) := by
  have ht : tier1 obs.toList = [] :=
    tier1Aux_nil obs.toList h (obs.toList.length + 1) obs.toList (List.suffix_refl _)
  refine ⟨ht, ?_⟩
  unfold formatar_meio_de_pagamento formatarL
  rw [ht]
  rfl

/-- Claim C10 counterexample: in `"R$ 50,00\ndinheiro"` the amount and
the keyword are separated by a newline, yet Tier 1 matches (the newline
is absorbed by the post-amount whitespace) and the classifier does not
fall through to the Tier-2 fallback. -/
theorem claim_C10_counterexample :
    tier1 "R$ 50,00\ndinheiro".toList ≠ []
    ∧ formatar_meio_de_pagamento "R$ 50,00\ndinheiro" = some "Dinheiro (R$ 50.00)"
    ∧ String.mk (tier2 "R$ 50,00\ndinheiro".toList) = "Dinheiro" :=
  ⟨by decide, by decide, by decide⟩

/-- Claim C10 witness: with non-whitespace text before the newline
(`"R$ 50,00 troco\ndinheiro"`) the locality condition holds, Tier 1
finds nothing and Tier 2 answers `Dinheiro`. -/
theorem claim_C10_witness :
    tier1 "R$ 50,00 troco\ndinheiro".toList = []
    ∧ formatar_meio_de_pagamento "R$ 50,00 troco\ndinheiro" = some "Dinheiro" := by
  have h := claim_C10 "R$ 50,00 troco\ndinheiro" (by decide)
  refine ⟨h.1, ?_⟩
  rw [h.2]
  decide

/-- The characters matched by the case-insensitive prefix test lower
to the keyword itself. -/
theorem stripPrefixCI_lower : ∀ k l m r, stripPrefixCI k l = some (m, r) → pyLower m = k := by
  intro k
  induction k with
  | nil =>
    intro l m r h
    unfold stripPrefixCI at h
    simp only [Option.some.injEq, Prod.mk.injEq] at h
    rw [← h.1]
    rfl
  | cons kc ks ih =>
    intro l m r h
    cases l with
    | nil => unfold stripPrefixCI at h; cases h
    | cons c cs =>
      unfold stripPrefixCI at h
      by_cases hc : asciiLower c = kc
      · rw [if_pos hc] at h
        cases hrec : stripPrefixCI ks cs with
        | none => rw [hrec] at h; cases h
        | some p =>
          obtain ⟨m2, r2⟩ := p
          rw [hrec] at h
          simp only [Option.some.injEq, Prod.mk.injEq] at h
          rw [← h.1]
          show asciiLower c :: pyLower m2 = kc :: ks
          rw [hc, ih cs m2 r2 hrec]
      · rw [if_neg hc] at h; cases h

/-- Any group captured by the keyword alternation lowers to one of the
four keywords. -/
theorem keywordAt_cases (l t r : List Char) (h : keywordAt l = some (t, r)) :
    pyLower t = ['d','i','n','h','e','i','r','o'] ∨ pyLower t = ['m','a','s','t','e','r']
    ∨ pyLower t = ['e','l','o'] ∨ pyLower t = ['p','i','x'] := by
  unfold keywordAt at h
  cases h1 : stripPrefixCI ['d','i','n','h','e','i','r','o'] l with
  | some p =>
    rw [h1] at h
    injection h with h
    subst h
    exact Or.inl (stripPrefixCI_lower _ _ _ _ h1)
  | none =>
    rw [h1] at h
    cases h2 : stripPrefixCI ['m','a','s','t','e','r'] l with
    | some p =>
      rw [h2] at h
      injection h with h
      subst h
      exact Or.inr (Or.inl (stripPrefixCI_lower _ _ _ _ h2))
    | none =>
      rw [h2] at h
      cases h3 : stripPrefixCI ['e','l','o'] l with
      | some p =>
        rw [h3] at h
        injection h with h
        subst h
        exact Or.inr (Or.inr (Or.inl (stripPrefixCI_lower _ _ _ _ h3)))
      | none =>
        rw [h3] at h
        exact Or.inr (Or.inr (Or.inr (stripPrefixCI_lower _ _ _ _ h)))

/-- The keyword of a successful lazy scan comes from the alternation. -/
theorem findKeywordNL_keyword : ∀ l t r, findKeywordNL l = some (t, r) →
    ∃ l2, keywordAt l2 = some (t, r) := by
  intro l
  induction l with
  | nil => intro t r h; cases h
  | cons c cs ih =>
    intro t r h
    unfold findKeywordNL at h
    cases hk : keywordAt (c :: cs) with
    | some p =>
      rw [hk] at h
      dsimp only at h
      exact ⟨c :: cs, hk.trans h⟩
    | none =>
      rw [hk] at h
      dsimp only at h
      by_cases hc : c = '\n'
      · rw [if_pos hc] at h; cases h
      · rw [if_neg hc] at h; exact ih t r h

/-- Unfolding of the Tier-1 scan at a successful match attempt. -/
theorem tier1Aux_succ_some (fuel : Nat) (l : List Char) (r : List Char × List Char × List Char)
    (h : tier1Step l = some r) :
    tier1Aux (fuel + 1) l = (r.1, r.2.1) :: tier1Aux fuel r.2.2 := by
  cases l with
  | nil =>
    rw [show tier1Step [] = (none : Option (List Char × List Char × List Char)) from rfl] at h
    cases h
  | cons c t =>
    show (match tier1Step (c :: t) with
          | some r => (r.1, r.2.1) :: tier1Aux fuel r.2.2
          | none =>
            match c :: t with
            | [] => []
            | _ :: t2 => tier1Aux fuel t2) = _
    rw [h]

/-- Unfolding of the Tier-1 scan at a failed match attempt. -/
theorem tier1Aux_succ_none (fuel : Nat) (c : Char) (t : List Char)
    (h : tier1Step (c :: t) = none) : tier1Aux (fuel + 1) (c :: t) = tier1Aux fuel t := by
  show (match tier1Step (c :: t) with
        | some r => (r.1, r.2.1) :: tier1Aux fuel r.2.2
        | none =>
          match c :: t with
          | [] => []
          | _ :: t2 => tier1Aux fuel t2) = _
  rw [h]

/-- Every keyword group of a Tier-1 match list admits a category in the
branch chain. -/
theorem tier1_cat : ∀ fuel l v t, (v, t) ∈ tier1Aux fuel l →
    ∃ cat, catFor (pyLower t) = some cat := by
  intro fuel
  induction fuel with
  | zero =>
    intro l v t h
    rw [show tier1Aux 0 l = ([] : List (List Char × List Char)) from rfl] at h
    cases h
  | succ fuel ih =>
    intro l v t h
    cases hstep : tier1Step l with
    | some r =>
      rw [tier1Aux_succ_some fuel l r hstep, List.mem_cons] at h
      rcases h with h | h
      · have ht : t = r.2.1 := congrArg Prod.snd h
        subst ht
        have hkw : ∃ l2 r2, keywordAt l2 = some (r.2.1, r2) := by
          unfold tier1Step at hstep
          cases hm : matchAmtPrefix l with
          | none => rw [hm] at hstep; cases hstep
          | some p =>
            obtain ⟨amt, rest⟩ := p
            rw [hm] at hstep
            dsimp only at hstep
            cases hf : findKeywordNL rest with
            | none => rw [hf] at hstep; cases hstep
            | some q =>
              obtain ⟨kw, rest2⟩ := q
              rw [hf] at hstep
              injection hstep with hstep
              subst hstep
              obtain ⟨l2, hl2⟩ := findKeywordNL_keyword rest kw rest2 hf
              exact ⟨l2, rest2, hl2⟩
        obtain ⟨l2, r2, hl2⟩ := hkw
        rcases keywordAt_cases l2 _ r2 hl2 with hk | hk | hk | hk <;> rw [hk]
        · exact ⟨['D','i','n','h','e','i','r','o'], by decide⟩
        · exact ⟨['C','a','r','t','ã','o',' ','d','e',' ','C','r','é','d','i','t','o'], by decide⟩
        · exact ⟨['C','a','r','t','ã','o',' ','d','e',' ','D','é','b','i','t','o'], by decide⟩
        · exact ⟨['P','I','X'], by decide⟩
      · exact ih _ _ _ h
    | none =>
      cases l with
      | nil =>
        rw [show tier1Aux (fuel + 1) [] = ([] : List (List Char × List Char)) from rfl] at h
        cases h
      | cons c t2 =>
        rw [tier1Aux_succ_none fuel c t2 hstep] at h
        exact ih _ _ _ h

/-- Digit characters produced by `digitChar` are digits. -/
theorem digitChar_digit (m : Nat) : isDigitChar (digitChar m) = true := by
  unfold digitChar
  split <;> decide

/-- The rendering accumulator only prepends digit characters. -/
theorem natDigitsAux_spec : ∀ fuel n acc, ∃ pre, natDigitsAux fuel n acc = pre ++ acc
    ∧ ∀ c ∈ pre, isDigitChar c = true := by
  intro fuel
  induction fuel with
  | zero => intro n acc; exact ⟨[], rfl, by simp⟩
  | succ fuel ih =>
    intro n acc
    unfold natDigitsAux
    by_cases h : n < 10
    · rw [if_pos h]
      refine ⟨[digitChar n], rfl, ?_⟩
      intro c hc
      rw [List.mem_singleton] at hc
      subst hc
      exact digitChar_digit n
    · rw [if_neg h]
      obtain ⟨pre, hp, hd⟩ := ih (n / 10) (digitChar (n % 10) :: acc)
      refine ⟨pre ++ [digitChar (n % 10)], ?_, ?_⟩
      · rw [hp]; simp
      · intro c hc
        rw [List.mem_append] at hc
        rcases hc with hc | hc
        · exact hd c hc
        · rw [List.mem_singleton] at hc; subst hc; exact digitChar_digit _

/-- A rendered natural number is a non-empty digit string. -/
theorem natToDec_spec (n : Nat) : natToDec n ≠ [] ∧ ∀ c ∈ natToDec n, isDigitChar c = true := by
  unfold natToDec natDigitsAux
  by_cases h : n < 10
  · rw [if_pos h]
    refine ⟨by simp, ?_⟩
    intro c hc
    rw [List.mem_singleton] at hc
    subst hc
    exact digitChar_digit n
  · rw [if_neg h]
    obtain ⟨pre, hp, hd⟩ := natDigitsAux_spec n (n / 10) [digitChar (n % 10)]
    rw [hp]
    refine ⟨by simp, ?_⟩
    intro c hc
    rw [List.mem_append] at hc
    rcases hc with hc | hc
    · exact hd c hc
    · rw [List.mem_singleton] at hc; subst hc; exact digitChar_digit _

/-- A formatted amount is a non-empty digit string, a point, and
exactly two digits. -/
theorem format2f_shape (v : DecVal) : ∃ ip d1 d2, format2f v = ip ++ ['.', d1, d2]
    ∧ ip ≠ [] ∧ (∀ c ∈ ip, isDigitChar c = true)
    ∧ isDigitChar d1 = true ∧ isDigitChar d2 = true := by
  refine ⟨natToDec (natRoundHalfEven (v.mantissa * 100) (10 ^ v.scale) / 100),
    digitChar (natRoundHalfEven (v.mantissa * 100) (10 ^ v.scale) % 100 / 10),
    digitChar (natRoundHalfEven (v.mantissa * 100) (10 ^ v.scale) % 100 % 10),
    rfl, (natToDec_spec _).1, (natToDec_spec _).2, digitChar_digit _, digitChar_digit _⟩

/-- Relation between one Tier-1 match and the entry string it emits:
the entry is exactly the branch category followed by the amount
formatted to two decimals in parentheses. -/
def entryRel (m : List Char × List Char) (e : List Char) : Prop :=
  ∃ cat v, catFor (pyLower m.2) = some cat ∧ pyFloat (normAmt m.1) = some v ∧
    e = cat ++ (' ' :: '(' :: 'R' :: '$' :: ' ' :: format2f v) ++ [')']

/-- The loop of lines 18-27 emits exactly one related entry per match,
in match order, when every conversion succeeds. -/
theorem entriesSpec : ∀ ms es, (∀ m ∈ ms, ∃ cat, catFor (pyLower m.2) = some cat) →
    entriesAux ms = some es → List.Forall₂ entryRel ms es := by
  intro ms
  induction ms with
  | nil =>
    intro es _ h
    unfold entriesAux at h
    injection h with h
    subst h
    exact List.Forall₂.nil
  | cons m rest ih =>
    intro es hall h
    obtain ⟨valor, tipo⟩ := m
    obtain ⟨cat, hcat⟩ := hall (valor, tipo) (List.mem_cons_self _ _)
    unfold entriesAux at h
    rw [hcat] at h
    cases hq : pyFloat (normAmt valor) with
    | none => rw [hq] at h; cases h
    | some q =>
      rw [hq] at h
      cases hrest : entriesAux rest with
      | none => rw [hrest] at h; cases h
      | some es2 =>
        rw [hrest] at h
        injection h with h
        subst h
        exact List.Forall₂.cons ⟨cat, q, hcat, hq, rfl⟩
          (ih es2 (fun m2 hm2 => hall m2 (List.mem_cons_of_mem _ hm2)) hrest)

/-- The branch chain only returns the four canonical categories. -/
theorem catFor_mem (t c : List Char) (h : catFor t = some c) :
    c = ['D','i','n','h','e','i','r','o']
    ∨ c = ['C','a','r','t','ã','o',' ','d','e',' ','C','r','é','d','i','t','o']
    ∨ c = ['C','a','r','t','ã','o',' ','d','e',' ','D','é','b','i','t','o']
    ∨ c = ['P','I','X'] := by
  unfold catFor at h
  split_ifs at h
  · exact Or.inl (Option.some.inj h).symm
  · exact Or.inr (Or.inl (Option.some.inj h).symm)
  · exact Or.inr (Or.inr (Or.inl (Option.some.inj h).symm))
  · exact Or.inr (Or.inr (Or.inr (Option.some.inj h).symm))

/-- Shape required by the claim for an emitted entry: a category label,
then a parenthesised amount with exactly two digits after the point. -/
def twoDecimalEntry (e : List Char) : Prop :=
  ∃ cat ip d1 d2,
    e = cat ++ (' ' :: '(' :: 'R' :: '$' :: ' ' :: (ip ++ ['.', d1, d2])) ++ [')']
    ∧ (cat = ['D','i','n','h','e','i','r','o']
       ∨ cat = ['C','a','r','t','ã','o',' ','d','e',' ','C','r','é','d','i','t','o']
       ∨ cat = ['C','a','r','t','ã','o',' ','d','e',' ','D','é','b','i','t','o']
       ∨ cat = ['P','I','X'])
    ∧ ip ≠ [] ∧ (∀ c ∈ ip, isDigitChar c = true)
    ∧ isDigitChar d1 = true ∧ isDigitChar d2 = true

/-- Every entry related to a match has the claimed shape. -/
theorem entryRel_twoDec (m : List Char × List Char) (e : List Char)
    (h : entryRel m e) : twoDecimalEntry e := by
  obtain ⟨cat, v, hcat, hv, he⟩ := h
  obtain ⟨ip, d1, d2, hfmt, hne, hdig, h1, h2⟩ := format2f_shape v
  subst he
  exact ⟨cat, ip, d1, d2, by rw [hfmt], catFor_mem _ _ hcat, hne, hdig, h1, h2⟩

/-- Pointwise consequence extraction on the right of a `Forall₂`. -/
theorem forall2_right {α β : Type} {R : α → β → Prop} {P : β → Prop} :
    ∀ {l1 : List α} {l2 : List β}, List.Forall₂ R l1 l2 →
      (∀ a b, R a b → P b) → ∀ b ∈ l2, P b := by
  intro l1 l2 h himp
  induction h with
  | nil => intro b hb; cases hb
  | cons hr ht ih =>
    intro b hb
    rw [List.mem_cons] at hb
    rcases hb with hb | hb
    · subst hb; exact himp _ _ hr
    · exact ih b hb

/-- Claim C1 (amended): when Tier 1 has at least one match and every
matched amount converts, the classifier returns exactly the comma-join
of one entry per match, in match order, each entry being the branch
category with its amount formatted to exactly two decimal places (so
Tier 2 is never consulted); when some matched amount fails to convert,
the call raises instead of returning. -/
theorem claim_C1 (obs : String) (hne : tier1 obs.toList ≠ []) :
    (entriesAux (tier1 obs.toList) = none → formatar_meio_de_pagamento obs = none)
    ∧ ∀ es, entriesAux (tier1 obs.toList) = some es →
        formatar_meio_de_pagamento obs = some (String.mk (joinComma es))
        ∧ es.length = (tier1 obs.toList).length
        ∧ List.Forall₂ entryRel (tier1 obs.toList) es
        ∧ ∀ e ∈ es, twoDecimalEntry e := by
  constructor
  · intro h
    unfold formatar_meio_de_pagamento formatarL
    rw [h]
    rfl
  · intro es h
    have hall : ∀ m ∈ tier1 obs.toList, ∃ cat, catFor (pyLower m.2) = some cat :=
      fun m hm => tier1_cat _ _ m.1 m.2 hm
    have hrel := entriesSpec _ es hall h
    have hlen : es.length = (tier1 obs.toList).length := hrel.length_eq.symm
    have hesne : es ≠ [] := by
      intro he
      subst he
      exact hne (List.length_eq_zero.mp (by simpa using hlen.symm))
    refine ⟨?_, hlen, hrel, forall2_right hrel (fun a b hr => entryRel_twoDec a b hr)⟩
    unfold formatar_meio_de_pagamento formatarL
    rw [h]
    cases es with
    | nil => cases hesne rfl
    | cons e es2 => rfl

/-- Claim C1 counterexample: on `"R$ 2,5,0 no dinheiro"` Tier 1 matches
(amount group `2,5,0`), yet the function raises on the float conversion
instead of returning the comma-joined entry list. -/
theorem claim_C1_counterexample :
    tier1 "R$ 2,5,0 no dinheiro".toList ≠ []
    ∧ formatar_meio_de_pagamento "R$ 2,5,0 no dinheiro" = none :=
  ⟨by decide, by decide⟩

/-- Claim C1 witness: a two-tender note yields both entries, comma
joined, in text order, each amount with two decimals. -/
theorem claim_C1_witness :
    formatar_meio_de_pagamento "R$ 10,50 no pix, R$ 5 dinheiro"
      = some "PIX (R$ 10.50), Dinheiro (R$ 5.00)" := by
  have h := (claim_C1 "R$ 10,50 no pix, R$ 5 dinheiro" (by decide)).2
    ["PIX (R$ 10.50)".toList, "Dinheiro (R$ 5.00)".toList] (by decide)
  rw [h.1]
  decide

/-- First-occurrence index is computed inside the prefix that holds the
element. -/
theorem firstIdx_append_mem (x : List Char) :
    ∀ pre l, x ∈ pre → firstIdx x (pre ++ l) = firstIdx x pre := by
  intro pre
  induction pre with
  | nil => intro l hx; cases hx
  | cons y t ih =>
    intro l hx
    by_cases hy : y = x
    · show firstIdx x (y :: (t ++ l)) = firstIdx x (y :: t)
      unfold firstIdx
      rw [if_pos hy, if_pos hy]
    · rw [List.mem_cons] at hx
      rcases hx with hx | hx
      · exact absurd hx.symm hy
      · show firstIdx x (y :: (t ++ l)) = firstIdx x (y :: t)
        unfold firstIdx
        rw [if_neg hy, if_neg hy, ih l hx]

/-- First-occurrence index skips a prefix that misses the element. -/
theorem firstIdx_append_not_mem (x : List Char) :
    ∀ pre l, x ∉ pre → firstIdx x (pre ++ l) = pre.length + firstIdx x l := by
  intro pre
  induction pre with
  | nil => intro l _; simp
  | cons y t ih =>
    intro l hx
    have hy : ¬ y = x := fun hyx => hx (by rw [hyx]; exact List.mem_cons_self x t)
    show firstIdx x (y :: (t ++ l)) = (y :: t).length + firstIdx x l
    rw [show firstIdx x (y :: (t ++ l))
        = if y = x then 0 else firstIdx x (t ++ l) + 1 from rfl]
    rw [if_neg hy, ih l (fun hm => hx (List.mem_cons_of_mem y hm))]
    simp only [List.length_cons]
    omega

/-- The first-occurrence index of a member is below the length. -/
theorem firstIdx_lt_length (x : List Char) :
    ∀ pre, x ∈ pre → firstIdx x pre < pre.length := by
  intro pre
  induction pre with
  | nil => intro hx; cases hx
  | cons y t ih =>
    intro hx
    unfold firstIdx
    by_cases hy : y = x
    · rw [if_pos hy]; simp
    · rw [if_neg hy]
      rw [List.mem_cons] at hx
      rcases hx with hx | hx
      · exact absurd hx.symm hy
      · have := ih hx
        simp only [List.length_cons]
        omega

/-- Invariant of the counting fold behind `most_common(1)`: walking the
remaining tokens while holding the first-encountered token of maximal
count over the seen prefix ends at the first-encountered token of
globally maximal count. -/
theorem mcAux_spec (full : List (List Char)) :
    ∀ rest pre b, full = pre ++ rest → b ∈ pre →
      (∀ s ∈ pre, full.count s ≤ full.count b) →
      (∀ s ∈ pre, full.count s = full.count b → firstIdx b full ≤ firstIdx s full) →
      mcAux full rest (b, full.count b) ∈ full
      ∧ (∀ s ∈ full, full.count s ≤ full.count (mcAux full rest (b, full.count b)))
      ∧ (∀ s ∈ full, full.count s = full.count (mcAux full rest (b, full.count b)) →
          firstIdx (mcAux full rest (b, full.count b)) full ≤ firstIdx s full) := by
  intro rest
  induction rest with
  | nil =>
    intro pre b hfull hb h1 h2
    rw [show mcAux full [] (b, full.count b) = b from rfl]
    rw [List.append_nil] at hfull
    subst hfull
    exact ⟨hb, h1, h2⟩
  | cons t rest ih =>
    intro pre b hfull hb h1 h2
    rw [show mcAux full (t :: rest) (b, full.count b)
        = if full.count t > full.count b then mcAux full rest (t, full.count t)
          else mcAux full rest (b, full.count b) from rfl]
    by_cases hgt : full.count t > full.count b
    · rw [if_pos hgt]
      apply ih (pre ++ [t]) t
      · rw [hfull]; simp
      · simp
      · intro s hs
        rw [List.mem_append, List.mem_singleton] at hs
        rcases hs with hs | hs
        · exact le_of_lt (lt_of_le_of_lt (h1 s hs) hgt)
        · subst hs; exact le_refl _
      · intro s hs hcnt
        rw [List.mem_append, List.mem_singleton] at hs
        rcases hs with hs | hs
        · exact absurd hcnt (by have := h1 s hs; omega)
        · subst hs; exact le_refl _
    · rw [if_neg hgt]
      apply ih (pre ++ [t]) b
      · rw [hfull]; simp
      · exact List.mem_append_left _ hb
      · intro s hs
        rw [List.mem_append, List.mem_singleton] at hs
        rcases hs with hs | hs
        · exact h1 s hs
        · subst hs; omega
      · intro s hs hcnt
        rw [List.mem_append, List.mem_singleton] at hs
        rcases hs with hps | hs
        · exact h2 s hps hcnt
        · by_cases htp : s ∈ pre
          · exact h2 s htp hcnt
          · have hbi : firstIdx b full = firstIdx b pre := by
              rw [hfull]; exact firstIdx_append_mem b pre _ hb
            have hti : firstIdx s full = pre.length + firstIdx s (t :: rest) := by
              rw [hfull]; exact firstIdx_append_not_mem s pre _ htp
            have h0 : firstIdx s (t :: rest) = 0 := by
              rw [hs]
              rw [show firstIdx t (t :: rest)
                  = if t = t then 0 else firstIdx t rest + 1 from rfl]
              rw [if_pos rfl]
            have hlt : firstIdx b pre < pre.length := firstIdx_lt_length b pre hb
            omega

/-- The winner of `most_common(1)` is a token of maximal occurrence
count, ties resolved toward the earliest first occurrence. -/
theorem mostCommon_spec (t0 : List Char) (rest : List (List Char)) :
    mostCommon (t0 :: rest) ∈ (t0 :: rest)
    ∧ (∀ s ∈ (t0 :: rest), (t0 :: rest).count s ≤ (t0 :: rest).count (mostCommon (t0 :: rest)))
    ∧ (∀ s ∈ (t0 :: rest), (t0 :: rest).count s = (t0 :: rest).count (mostCommon (t0 :: rest)) →
        firstIdx (mostCommon (t0 :: rest)) (t0 :: rest) ≤ firstIdx s (t0 :: rest)) := by
  have h := mcAux_spec (t0 :: rest) rest [t0] t0 rfl (List.mem_singleton_self t0)
    (fun s hs => by rw [List.mem_singleton] at hs; subst hs; exact le_refl _)
    (fun s hs _ => by rw [List.mem_singleton] at hs; subst hs; exact le_refl _)
  exact h

/-- Characters of a matched prefix belong to the scanned list. -/
theorem prefixOfL_mem : ∀ p l, prefixOfL p l = true → ∀ c ∈ p, c ∈ l := by
  intro p
  induction p with
  | nil => intro l _ c hc; cases hc
  | cons x ps ih =>
    intro l h c hc
    cases l with
    | nil => unfold prefixOfL at h; cases h
    | cons y ys =>
      unfold prefixOfL at h
      by_cases hxy : x = y
      · rw [if_pos hxy] at h
        rw [List.mem_cons] at hc
        rcases hc with hc | hc
        · subst hc; rw [hxy]; exact List.mem_cons_self y ys
        · exact List.mem_cons_of_mem y (ih ys h c hc)
      · rw [if_neg hxy] at h; cases h

/-- Characters of a contained substring belong to the string. -/
theorem containsSub_mem (p : List Char) : ∀ l, containsSub p l = true → ∀ c ∈ p, c ∈ l := by
  intro l
  induction l with
  | nil =>
    intro h c hc
    cases p with
    | nil => cases hc
    | cons a as => unfold containsSub prefixOfL at h; cases h
  | cons y ys ih =>
    intro h c hc
    unfold containsSub at h
    rw [Bool.or_eq_true] at h
    rcases h with h | h
    · exact prefixOfL_mem p (y :: ys) h c hc
    · exact List.mem_cons_of_mem y (ih h c hc)

/-- Every character of an aggregator run belongs to the run class. -/
theorem runsAux_agg : ∀ fuel l r, r ∈ runsAux fuel l → ∀ c ∈ r, isAggChar c = true := by
  intro fuel
  induction fuel with
  | zero =>
    intro l r hr
    rw [show runsAux 0 l = ([] : List (List Char)) from rfl] at hr
    cases hr
  | succ fuel ih =>
    intro l r hr
    cases l with
    | nil =>
      rw [show runsAux (fuel + 1) [] = ([] : List (List Char)) from rfl] at hr
      cases hr
    | cons ch t =>
      unfold runsAux at hr
      by_cases hc : isAggChar ch = true
      · rw [if_pos hc] at hr
        rw [List.mem_cons] at hr
        rcases hr with hr | hr
        · subst hr
          intro c hcc
          rw [List.mem_cons] at hcc
          rcases hcc with hcc | hcc
          · subst hcc; exact hc
          · exact List.mem_takeWhile_imp hcc
        · exact ih _ r hr
      · rw [if_neg hc] at hr
        exact ih t r hr

/-- Stripping preserves membership. -/
theorem pyStrip_mem (l : List Char) (c : Char) (h : c ∈ pyStrip l) : c ∈ l := by
  unfold pyStrip at h
  rw [List.mem_reverse] at h
  have h2 := (List.dropWhile_sublist isSpaceChar).mem h
  rw [List.mem_reverse] at h2
  exact (List.dropWhile_sublist isSpaceChar).mem h2

/-- Token cleaning preserves membership. -/
theorem cleanToken_mem (t : List Char) (c : Char) (h : c ∈ cleanToken t) : c ∈ t := by
  unfold cleanToken at h
  have h1 := pyStrip_mem _ _ h
  rw [List.mem_filter] at h1
  have h2 := h1.1
  rw [List.mem_filter] at h2
  exact pyStrip_mem _ _ h2.1

/-- The `'R$' not in token` filter of line 52 never fires: `$` is not a
run character, so no cleaned run contains the substring `R$` and the
`R` fragment of every currency marker is kept as a token. -/
theorem tokensOf_no_marker (item t : List Char) (ht : t ∈ aggRuns item) :
    containsSub ['R','$'] (cleanToken t) = false := by
  cases hcs : containsSub ['R','$'] (cleanToken t) with
  | false => rfl
  | true =>
    exfalso
    have hd : '$' ∈ cleanToken t := containsSub_mem _ _ hcs '$' (by decide)
    have hdt : '$' ∈ t := cleanToken_mem t '$' hd
    have hagg := runsAux_agg _ _ t ht '$' hdt
    exact absurd hagg (by decide)

/-- Token list of a whole sales column. -/
def toksOfCol (col : List String) : List (List Char) :=
  (col.map String.toList).flatMap tokensOf

/-- Claim C3 (amended): each description is decomposed into maximal runs
of the class `[a-zA-Zãáçéíõú\s/]`, stripped, and every non-empty run is
kept — the `'R$' not in run` filter can never fire because `$` is not a
run character, so the `R` fragments of currency markers are counted as
tokens.  The token with the highest total count wins, ties broken
toward the token first encountered in the scan; an empty record set
yields the sentinel `Nenhum`. -/
theorem claim_C3 (col : List String) :
    (col = [] → encontrar_pagamento_mais_frequente col = "Nenhum")
    ∧ (∀ item t, t ∈ aggRuns item → containsSub ['R','$'] (cleanToken t) = false)
    ∧ (col ≠ [] → toksOfCol col ≠ [] →
        encontrar_pagamento_mais_frequente col = String.mk (mostCommon (toksOfCol col))
        ∧ mostCommon (toksOfCol col) ∈ toksOfCol col
        ∧ (∀ s ∈ toksOfCol col,
            (toksOfCol col).count s ≤ (toksOfCol col).count (mostCommon (toksOfCol col)))
        ∧ (∀ s ∈ toksOfCol col,
            (toksOfCol col).count s = (toksOfCol col).count (mostCommon (toksOfCol col)) →
            firstIdx (mostCommon (toksOfCol col)) (toksOfCol col) ≤ firstIdx s (toksOfCol col))) := by
  refine ⟨?_, fun item t ht => tokensOf_no_marker item t ht, ?_⟩
  · intro h
    subst h
    rfl
  · intro hcol htoks
    have hresult : encontrar_pagamento_mais_frequente col
        = String.mk (mostCommon (toksOfCol col)) := by
      unfold encontrar_pagamento_mais_frequente encontrarL
      rw [if_neg (fun he => hcol (List.map_eq_nil_iff.mp he))]
      dsimp only
      rw [if_neg (show ¬ (col.map String.toList).flatMap tokensOf = [] from htoks)]
      rfl
    cases htk : toksOfCol col with
    | nil => exact absurd htk htoks
    | cons t0 rest =>
      have h := mostCommon_spec t0 rest
      rw [htk] at hresult
      exact ⟨hresult, h.1, h.2.1, h.2.2⟩

/-- Claim C3 counterexample: for the single composite description
`Dinheiro (R$ 5.00), PIX (R$ 5.00)` the aggregator returns `R` — the
currency-marker fragment, counted twice — rather than one of the
category tokens `Dinheiro` or `PIX` (once each), so runs adjacent to a
currency marker are not discarded. -/
theorem claim_C3_counterexample :
    encontrar_pagamento_mais_frequente ["Dinheiro (R$ 5.00), PIX (R$ 5.00)"] = "R"
    ∧ (toksOfCol ["Dinheiro (R$ 5.00), PIX (R$ 5.00)"]).count "R".toList = 2
    ∧ (toksOfCol ["Dinheiro (R$ 5.00), PIX (R$ 5.00)"]).count "Dinheiro".toList = 1
    ∧ (toksOfCol ["Dinheiro (R$ 5.00), PIX (R$ 5.00)"]).count "PIX".toList = 1 :=
  ⟨by decide, by decide, by decide, by decide⟩

/-- Claim C3 witness: on the claim's own example the winner is
`Dinheiro` with three occurrences against one. -/
theorem claim_C3_witness :
    encontrar_pagamento_mais_frequente ["Dinheiro", "Cartão de Crédito, Dinheiro", "Dinheiro"]
      = "Dinheiro"
    ∧ (toksOfCol ["Dinheiro", "Cartão de Crédito, Dinheiro", "Dinheiro"]).count
        "Dinheiro".toList = 3
    ∧ (toksOfCol ["Dinheiro", "Cartão de Crédito, Dinheiro", "Dinheiro"]).count
        "Cartão de Crédito".toList = 1 := by
  have h := (claim_C3 ["Dinheiro", "Cartão de Crédito, Dinheiro", "Dinheiro"]).2.2
    (by decide) (by decide)
  refine ⟨?_, by decide, by decide⟩
  rw [h.1]
  decide
